import Mathlib

/-!
# Verification of `ringctx` `src/digest.rs`

A shallow embedding of the streaming digest core (Init-Update-Finish
framework) of `src/digest.rs`: the block engine (`BlockContext`), the stream
context (`Context`), the five algorithm descriptors, the one-shot `digest`
function, and snapshot capture/restore (`serialize`/`deserialize`).

Modelling conventions:
* Bytes and machine words are `Nat` with explicit bounds or `% 2^w` where
  overflow matters.  `u64` saturating addition is `min (a + b) (2^64 - 1)`;
  `u64` checked addition is an `Option`.
* Byte buffers are `List Nat`.  The fixed `[u8; MAX_BLOCK_LEN]` buffer is a
  list whose length-128 invariant is carried as a hypothesis where needed.
* Rust panics (`assert!`, `unwrap`, `unreachable!`) are `Option.none`;
  `debug_assert!` is compiled out in release builds and is not modelled.
* The per-algorithm compression hooks (`mod dynstate`, `mod sha1`,
  `mod sha2`) and the output-formatting hooks live outside `src/`; the spec
  treats them as external collaborators.  They are abstract parameters,
  bundled in `Hooks`.  `block_data_order`'s behaviour is modelled from its
  in-source contract (src/src/digest.rs lines 402-404): it "processes all
  the full blocks of data in `data`. It returns the number of bytes
  processed and the unprocessed data, which is guaranteed to be less than
  `block_len` bytes long" — i.e. the per-block compression hook iterated
  over every whole block.
* The `cpu::Features` capability token is read-only and has no observable
  effect in this core; it is dropped from the embedding.
-/

/-- The value `u64::MAX`. -/
def U64_MAX : Nat := 2 ^ 64 - 1

/-- Saturating `u64` addition (`u64::saturating_add`). -/
def satAddU64 (a b : Nat) : Nat := min (a + b) U64_MAX

/-- Checked `u64` addition (`u64::checked_add`); `none` is overflow. -/
def checkedAddU64 (a b : Nat) : Option Nat :=
  if a + b ≤ U64_MAX then some (a + b) else none

/-- Modelled from the spec: `BitLength::from_byte_len` (crate `bits`, not
under `src/`) converts a byte length to a bit length and is "the single
point at which an oversized input (more than 2^64−1 bits total) is fatally
rejected" — it fails exactly when the bit count does not fit in `u64`. -/
def bitLenFromByteLen (byteLen : Nat) : Option Nat :=
  if 8 * byteLen ≤ U64_MAX then some (8 * byteLen) else none

/-- Fixed-width big-endian byte encoding of `n` (most significant byte
first).  `beBytesFixed 8` models `BitLength::to_be_bytes` (a `u64` in big
endian, per the in-source comment "Output the length, in bits, in big
endian order"). -/
def beBytesFixed : Nat → Nat → List Nat
  | 0, _ => []
  | w + 1, n => (n / 2 ^ (8 * w)) % 256 :: beBytesFixed w n

/-- The helper `polyfill::sliceutil::overwrite_at_start(dest, src)`: copies the first
`min dest.length src.length` bytes of `src` over the start of `dest`,
leaving the rest of `dest` unchanged. -/
def overwriteAtStart (dest src : List Nat) : List Nat :=
  src.take dest.length ++ dest.drop src.length

/-- The `enum AlgorithmID` of src/src/digest.rs. -/
inductive AlgorithmID : Type where
  | SHA1
  | SHA256
  | SHA384
  | SHA512
  | SHA512_256
deriving DecidableEq, Repr

/-- The `enum DynState` (mod `dynstate`): a tagged union of eight 32-bit or
eight 64-bit chaining words.  Word values are `Nat`s; the 8-word length and
the `< 2^32` / `< 2^64` bounds are invariants carried as hypotheses. -/
inductive DynState : Type where
  | As32 (s : List Nat)
  | As64 (s : List Nat)
deriving DecidableEq, Repr

/-- Whether the active variant is the 64-bit one. -/
def DynState.is64 : DynState → Bool
  | .As32 _ => false
  | .As64 _ => true

/-- The `struct Algorithm` of src/src/digest.rs.  `compress` is the abstract
per-block transform underlying the descriptor's `block_data_order` hook
(whose internals live in `mod dynstate`, outside `src/`); `format_output`
is the descriptor's output-formatting hook. -/
structure Algorithm : Type where
  output_len : Nat
  chaining_len : Nat
  block_len : Nat
  len_len : Nat
  compress : DynState → List Nat → DynState
  format_output : DynState → List Nat
  initial_state : DynState
  id : AlgorithmID

/-- Iterate the per-block compression over `n` leading `bl`-byte blocks of
`data`. -/
def absorbBlocks (f : DynState → List Nat → DynState) (bl : Nat) :
    Nat → DynState → List Nat → DynState
  | 0, s, _ => s
  | n + 1, s, data => absorbBlocks f bl n (f s (data.take bl)) (data.drop bl)

/-- The `block_data_order` hook, per its in-source contract: processes all
the full blocks of `data`, returning the new state, the number of bytes
processed (a multiple of the block length), and the unprocessed remainder
(shorter than a block). -/
def blockDataOrder (f : DynState → List Nat → DynState) (bl : Nat)
    (s : DynState) (data : List Nat) : DynState × Nat × List Nat :=
  let n := data.length / bl
  (absorbBlocks f bl n s data, n * bl, data.drop (n * bl))

/-- The chaining state after absorbing every full block of `data` (the
first component of `blockDataOrder`). -/
def absorbAll (f : DynState → List Nat → DynState) (bl : Nat)
    (s : DynState) (data : List Nat) : DynState :=
  absorbBlocks f bl (data.length / bl) s data

/-- The constant `MAX_BLOCK_LEN` (`BlockLen::MAX`, 1024 bits). -/
def MAX_BLOCK_LEN : Nat := 128

/-- The constant `MAX_OUTPUT_LEN` (`OutputLen::MAX`, 512 bits). -/
def MAX_OUTPUT_LEN : Nat := 64

/-- The `struct Digest`: the output bytes (the `Output` array, of which the
first `output_len` are exposed by `as_ref`) tagged with the algorithm. -/
structure Digest : Type where
  value : List Nat
  algorithm : Algorithm

/-- The accessor `Digest::as_ref`: the first `output_len` bytes of the output array. -/
def Digest.asRef (d : Digest) : List Nat := d.value.take d.algorithm.output_len

/-- The `struct BlockContext`. -/
structure BlockContext : Type where
  state : DynState
  completed_bytes : Nat
  algorithm : Algorithm

/-- The constructor `BlockContext::new`. -/
def BlockContext.new (algorithm : Algorithm) : BlockContext :=
  { state := algorithm.initial_state, completed_bytes := 0, algorithm }

/-- The method `BlockContext::update`: feeds every full block to the compression and
advances the byte counter with a `u64` saturating add; returns the new
engine and the leftover partial block. -/
def BlockContext.update (b : BlockContext) (input : List Nat) :
    BlockContext × List Nat :=
  let r := blockDataOrder b.algorithm.compress b.algorithm.block_len b.state input
  ({ b with state := r.1, completed_bytes := satAddU64 b.completed_bytes r.2.1 },
   r.2.2)

/-- The method `BlockContext::finish`: FIPS 180-4 padding and final compression.
`none` models a Rust panic: the two leading `assert`s on the buffer shape,
and the `unwrap`s on the `checked_add`/`BitLength::from_byte_len`
conversion of the byte count to a bit count. -/
def BlockContext.finish (b : BlockContext) (pending : List Nat)
    (num_pending : Nat) : Option Digest :=
  let block_len := b.algorithm.block_len
  if pending.length = block_len then
    if num_pending < pending.length then
      let pending1 := pending.set num_pending 0x80
      let padding_pos := num_pending + 1
      -- If the length field no longer fits, zero-fill, compress, restart.
      let step :=
        if padding_pos > pending1.length - b.algorithm.len_len then
          let p := pending1.take padding_pos ++
            List.replicate (pending1.length - padding_pos) 0
          ((blockDataOrder b.algorithm.compress block_len b.state p).1, p, 0)
        else (b.state, pending1, padding_pos)
      let pending3 := step.2.1.take step.2.2 ++
        List.replicate (block_len - 8 - step.2.2) 0 ++ step.2.1.drop (block_len - 8)
      match checkedAddU64 b.completed_bytes num_pending with
      | none => none
      | some completed_bytes =>
        match bitLenFromByteLen completed_bytes with
        | none => none
        | some bits =>
          let pending4 := pending3.take (block_len - 8) ++ beBytesFixed 8 bits
          let st2 := (blockDataOrder b.algorithm.compress block_len step.1 pending4).1
          some { algorithm := b.algorithm, value := b.algorithm.format_output st2 }
    else none
  else none

/-- The `struct Context`. -/
structure Context : Type where
  block : BlockContext
  pending : List Nat
  num_pending : Nat

/-- The constructor `Context::new`. -/
def Context.new (algorithm : Algorithm) : Context :=
  { block := BlockContext.new algorithm,
    pending := List.replicate MAX_BLOCK_LEN 0,
    num_pending := 0 }

/-- The method `Context::update`.  Here `none` models the panic via unreachable code reached
only when the `num_pending < block_len` invariant is broken. -/
def Context.update (c : Context) (data : List Nat) : Option Context :=
  let block_len := c.block.algorithm.block_len
  let buffer := c.pending.take block_len
  if c.num_pending = 0 then
    let r := c.block.update data
    some { block := r.1,
           pending := overwriteAtStart buffer r.2 ++ c.pending.drop block_len,
           num_pending := r.2.length }
  else
    if c.num_pending ≤ buffer.length then
      let buffer_to_fill := buffer.drop c.num_pending
      let buffer1 := buffer.take c.num_pending ++ overwriteAtStart buffer_to_fill data
      if buffer_to_fill.length ≤ data.length then
        let to_digest := data.drop buffer_to_fill.length
        let r1 := c.block.update buffer1
        let r2 := r1.1.update to_digest
        some { block := r2.1,
               pending := overwriteAtStart buffer1 r2.2 ++ c.pending.drop block_len,
               num_pending := r2.2.length }
      else
        some { block := c.block,
               pending := buffer1 ++ c.pending.drop block_len,
               num_pending := c.num_pending + data.length }
    else none

/-- The method `Context::finish`. -/
def Context.finish (c : Context) : Option Digest :=
  c.block.finish (c.pending.take c.block.algorithm.block_len) c.num_pending

/-- The accessor `Context::algorithm`. -/
def Context.algorithm (c : Context) : Algorithm := c.block.algorithm

/-- The one-shot `pub fn digest`: construct, one `update`, `finish`. -/
def digest (algorithm : Algorithm) (data : List Nat) : Option Digest :=
  (Context.new algorithm).update data >>= Context.finish

/-- A sequence of `update` calls, one per chunk, in order. -/
def updates : Context → List (List Nat) → Option Context
  | c, [] => some c
  | c, chunk :: rest =>
    match c.update chunk with
    | none => none
    | some c' => updates c' rest

/-- The `struct ContextState`. -/
structure ContextState : Type where
  name : String
  data : List Nat

/-- The `struct ContextData`. -/
structure ContextData : Type where
  state : ContextState
  completed_bytes : Nat
  algorithm : String
  num_pending : Nat
  pending : List Nat

/-- The method `Context::serialize`.  The 32-bit words are widened to the common
64-bit representation (on `Nat` the widening is the identity). -/
def Context.serialize (c : Context) : ContextData :=
  let p : String × List Nat :=
    match c.block.state with
    | .As64 s => ("as64", s)
    | .As32 s => ("as32", s)
  let algo : String :=
    match c.block.algorithm.id with
    | .SHA1 => "SHA1"
    | .SHA256 => "SHA256"
    | .SHA384 => "SHA384"
    | .SHA512 => "SHA512"
    | .SHA512_256 => "SHA512_256"
  { completed_bytes := c.block.completed_bytes,
    state := { name := p.1, data := p.2 },
    algorithm := algo,
    num_pending := c.num_pending,
    pending := c.pending }

/-- The abstract external collaborators: the three `block_data_order`
per-block compression transforms and the two output-formatting hooks named
by the five descriptors (`mod dynstate`, not under `src/`). -/
structure Hooks : Type where
  sha1_block : DynState → List Nat → DynState
  sha256_block : DynState → List Nat → DynState
  sha512_block : DynState → List Nat → DynState
  sha256_format : DynState → List Nat
  sha512_format : DynState → List Nat

/-- The descriptor `static SHA1_FOR_LEGACY_USE_ONLY` (the `sha1` module constants
`OUTPUT_LEN = 20`, `CHAINING_LEN = 20`, `BLOCK_LEN = 64` are not under
`src/`; per the spec, digest length 20 and block length 64). -/
def SHA1_FOR_LEGACY_USE_ONLY (H : Hooks) : Algorithm :=
  { output_len := 20
    chaining_len := 20
    block_len := 64
    len_len := 64 / 8
    compress := H.sha1_block
    format_output := H.sha256_format
    initial_state := DynState.As32
      [0x67452301, 0xefcdab89, 0x98badcfe, 0x10325476, 0xc3d2e1f0, 0, 0, 0]
    id := AlgorithmID.SHA1 }

/-- The descriptor `static SHA256`. -/
def SHA256 (H : Hooks) : Algorithm :=
  { output_len := 32
    chaining_len := 32
    block_len := 64
    len_len := 64 / 8
    compress := H.sha256_block
    format_output := H.sha256_format
    initial_state := DynState.As32
      [0x6a09e667, 0xbb67ae85, 0x3c6ef372, 0xa54ff53a,
       0x510e527f, 0x9b05688c, 0x1f83d9ab, 0x5be0cd19]
    id := AlgorithmID.SHA256 }

/-- The descriptor `static SHA384`. -/
def SHA384 (H : Hooks) : Algorithm :=
  { output_len := 48
    chaining_len := 64
    block_len := 128
    len_len := 128 / 8
    compress := H.sha512_block
    format_output := H.sha512_format
    initial_state := DynState.As64
      [0xcbbb9d5dc1059ed8, 0x629a292a367cd507, 0x9159015a3070dd17,
       0x152fecd8f70e5939, 0x67332667ffc00b31, 0x8eb44a8768581511,
       0xdb0c2e0d64f98fa7, 0x47b5481dbefa4fa4]
    id := AlgorithmID.SHA384 }

/-- The descriptor `static SHA512`. -/
def SHA512 (H : Hooks) : Algorithm :=
  { output_len := 64
    chaining_len := 64
    block_len := 128
    len_len := 128 / 8
    compress := H.sha512_block
    format_output := H.sha512_format
    initial_state := DynState.As64
      [0x6a09e667f3bcc908, 0xbb67ae8584caa73b, 0x3c6ef372fe94f82b,
       0xa54ff53a5f1d36f1, 0x510e527fade682d1, 0x9b05688c2b3e6c1f,
       0x1f83d9abfb41bd6b, 0x5be0cd19137e2179]
    id := AlgorithmID.SHA512 }

/-- The descriptor `static SHA512_256`. -/
def SHA512_256 (H : Hooks) : Algorithm :=
  { output_len := 32
    chaining_len := 64
    block_len := 128
    len_len := 128 / 8
    compress := H.sha512_block
    format_output := H.sha512_format
    initial_state := DynState.As64
      [0x22312194fc2bf72c, 0x9f555fa3c84c64c2, 0x2393b86b6f53b151,
       0x963877195940eabd, 0x96283ee2a88effe3, 0xbe5e1e2553863992,
       0x2b0199fc2c85b8aa, 0x0eb72ddc81c52ca2]
    id := AlgorithmID.SHA512_256 }

/-- Membership of `alg` among the five supported algorithm descriptors. -/
def IsSupported (H : Hooks) (alg : Algorithm) : Prop :=
  alg = SHA1_FOR_LEGACY_USE_ONLY H ∨ alg = SHA256 H ∨ alg = SHA384 H ∨
    alg = SHA512 H ∨ alg = SHA512_256 H

/-- The method `Context::deserialize`.  Here `none` models a Rust panic: the function's
Rust signature is `fn deserialize(data: ContextData) -> Self` — it has no
recoverable error path — and malformed shapes hit `.unwrap()` on the
`try_into` conversions (word-list length ≠ 8, a word too wide for the
32-bit variant, pending buffer length ≠ `MAX_BLOCK_LEN`). -/
def Context.deserialize (H : Hooks) (data : ContextData) : Option Context :=
  let algo :=
    if data.algorithm = "SHA1" then SHA1_FOR_LEGACY_USE_ONLY H
    else if data.algorithm = "SHA256" then SHA256 H
    else if data.algorithm = "SHA384" then SHA384 H
    else if data.algorithm = "SHA512" then SHA512 H
    else if data.algorithm = "SHA512_256" then SHA512_256 H
    else SHA256 H
  let st? : Option DynState :=
    if data.state.name = "as64" then
      if data.state.data.length = 8 then some (DynState.As64 data.state.data)
      else none
    else
      if data.state.data.length = 8 then
        if ∀ x ∈ data.state.data, x < 2 ^ 32 then
          some (DynState.As32 data.state.data)
        else none
      else none
  match st? with
  | none => none
  | some st =>
    if data.pending.length = MAX_BLOCK_LEN then
      some { block := { state := st, completed_bytes := data.completed_bytes,
                        algorithm := algo },
             pending := data.pending,
             num_pending := data.num_pending }
    else none

/-- Concrete instantiation of the abstract collaborators, for evaluating
the engine at concrete inputs. -/
def trivialHooks : Hooks :=
  { sha1_block := fun s _ => s
    sha256_block := fun s _ => s
    sha512_block := fun s _ => s
    sha256_format := fun _ => List.replicate MAX_OUTPUT_LEN 0
    sha512_format := fun _ => List.replicate MAX_OUTPUT_LEN 0 }

/-! ## Basic lemmas -/

theorem overwriteAtStart_length (dest src : List Nat) :
    (overwriteAtStart dest src).length = dest.length := by
  simp [overwriteAtStart]
  omega

theorem overwriteAtStart_nil (dest : List Nat) : overwriteAtStart dest [] = dest := by
  simp [overwriteAtStart]

theorem block_len_pos {H : Hooks} {alg : Algorithm} (h : IsSupported H alg) :
    0 < alg.block_len := by
  rcases h with h | h | h | h | h <;> subst h <;>
    simp [SHA1_FOR_LEGACY_USE_ONLY, SHA256, SHA384, SHA512, SHA512_256]

theorem block_len_le_max {H : Hooks} {alg : Algorithm} (h : IsSupported H alg) :
    alg.block_len ≤ MAX_BLOCK_LEN := by
  rcases h with h | h | h | h | h <;> subst h <;>
    simp [SHA1_FOR_LEGACY_USE_ONLY, SHA256, SHA384, SHA512, SHA512_256, MAX_BLOCK_LEN]

theorem BlockContext.update_leftover_length (b : BlockContext) (input : List Nat) :
    (b.update input).2.length =
      input.length - input.length / b.algorithm.block_len * b.algorithm.block_len := by
  simp [BlockContext.update, blockDataOrder]

theorem BlockContext.update_algorithm (b : BlockContext) (input : List Nat) :
    (b.update input).1.algorithm = b.algorithm := rfl

/-- C10 helper: what a single `BlockContext.update` does, componentwise. -/
theorem BlockContext.update_eq (b : BlockContext) (input : List Nat) :
    b.update input =
      ({ state := absorbAll b.algorithm.compress b.algorithm.block_len b.state input,
         completed_bytes :=
           satAddU64 b.completed_bytes
             (input.length / b.algorithm.block_len * b.algorithm.block_len),
         algorithm := b.algorithm },
       input.drop (input.length / b.algorithm.block_len * b.algorithm.block_len)) := by
  simp [BlockContext.update, blockDataOrder, absorbAll]

/-- C10: calling `update` with an empty byte slice is the identity on every
reachable `Context`.  The hypotheses are the reachable-state invariants: the
byte counter fits in `u64`, `num_pending` is below the block length, and the
fixed pending buffer is at least one block long. -/
theorem update_nil_eq_self (c : Context)
    (hcb : c.block.completed_bytes ≤ U64_MAX)
    (hnp : c.num_pending < c.block.algorithm.block_len)
    (hpl : c.block.algorithm.block_len ≤ c.pending.length) :
    c.update [] = some c := by
  obtain ⟨⟨st, cb, alg⟩, p, np⟩ := c
  simp only [Context.update] at *
  by_cases h0 : np = 0
  · subst h0
    simp [BlockContext.update, blockDataOrder, absorbBlocks, overwriteAtStart,
      satAddU64, Nat.min_eq_left hcb]
  · have hbuf : (p.take alg.block_len).length = alg.block_len := by
      simp
      omega
    rw [if_neg h0, if_pos (by rw [hbuf]; exact Nat.le_of_lt hnp),
      if_neg (by simp [hbuf]; omega)]
    simp [overwriteAtStart_nil]

/-- Witness for `update_nil_eq_self` at a concrete context. -/
theorem update_nil_eq_self_witness :
    ((Context.new (SHA256 trivialHooks)).block.completed_bytes ≤ U64_MAX ∧
      (Context.new (SHA256 trivialHooks)).num_pending <
        (Context.new (SHA256 trivialHooks)).block.algorithm.block_len ∧
      (Context.new (SHA256 trivialHooks)).block.algorithm.block_len ≤
        (Context.new (SHA256 trivialHooks)).pending.length) ∧
    (Context.new (SHA256 trivialHooks)).update [] =
      some (Context.new (SHA256 trivialHooks)) :=
  ⟨⟨by simp [Context.new, BlockContext.new, U64_MAX],
    by simp [Context.new, BlockContext.new, SHA256],
    by simp [Context.new, BlockContext.new, SHA256, MAX_BLOCK_LEN]⟩,
    update_nil_eq_self _ (by simp [Context.new, BlockContext.new, U64_MAX])
      (by simp [Context.new, BlockContext.new, SHA256])
      (by simp [Context.new, BlockContext.new, SHA256, MAX_BLOCK_LEN])⟩

theorem leftover_length_lt (len bl : Nat) (hbl : 0 < bl) :
    len - len / bl * bl < bl := by
  have h1 := Nat.div_add_mod len bl
  have h2 := Nat.mod_lt len hbl
  rw [Nat.mul_comm] at h1
  omega

/-- C7: the invariant `0 ≤ num_pending < block_len` holds after
`Context::new` (for each of the five supported algorithms), and every
successful `update` call preserves it (together with the algorithm and the
buffer length it depends on), so it holds between any two calls. -/
theorem num_pending_invariant :
    (∀ (H : Hooks) (alg : Algorithm), IsSupported H alg →
      (Context.new alg).num_pending < (Context.new alg).block.algorithm.block_len) ∧
    (∀ (c : Context) (data : List Nat) (c' : Context),
      0 < c.block.algorithm.block_len →
      c.block.algorithm.block_len ≤ c.pending.length →
      c.num_pending < c.block.algorithm.block_len →
      c.update data = some c' →
      c'.block.algorithm = c.block.algorithm ∧
      c'.block.algorithm.block_len ≤ c'.pending.length ∧
      c'.num_pending < c'.block.algorithm.block_len) := by
  constructor
  · intro H alg hsup
    simpa [Context.new, BlockContext.new] using block_len_pos hsup
  · intro c data c' hbl hpl hnp h
    obtain ⟨⟨st, cb, alg⟩, p, np⟩ := c
    dsimp only at hbl hpl hnp ⊢
    simp only [Context.update] at h
    split at h
    · simp only [Option.some.injEq] at h
      subst h
      refine ⟨rfl, ?_, ?_⟩
      · simp [BlockContext.update, blockDataOrder, overwriteAtStart_length]
        omega
      · simp [BlockContext.update, blockDataOrder]
        exact leftover_length_lt data.length alg.block_len hbl
    · split at h
      · split at h
        · simp only [Option.some.injEq] at h
          subst h
          refine ⟨rfl, ?_, ?_⟩
          · simp [BlockContext.update, blockDataOrder, overwriteAtStart_length]
            omega
          · simp [BlockContext.update, blockDataOrder]
            have hlt := leftover_length_lt
              (data.length - (alg.block_len ⊓ p.length - np)) alg.block_len hbl
            omega
        · simp only [Option.some.injEq] at h
          subst h
          refine ⟨rfl, ?_, ?_⟩
          · simp [overwriteAtStart_length]
            omega
          · rename_i hne hle hgt
            simp [overwriteAtStart_length] at hgt ⊢
            omega
      · exact absurd h (by simp)

/-- C3: `update` is total (no failure path) for any byte sequence on a
context satisfying the buffer invariants; the byte counter is advanced by a
saturating add capped at `u64::MAX`; and an input of more than `2^64 − 1`
bits is rejected exactly inside `finish`, at the conversion of the
saturated byte counter plus the pending count into a bit length. -/
theorem update_infallible_overflow_in_finish :
    (∀ (c : Context) (data : List Nat),
      c.block.algorithm.block_len ≤ c.pending.length →
      c.num_pending < c.block.algorithm.block_len →
      (c.update data).isSome = true) ∧
    (∀ (b : BlockContext) (input : List Nat),
      (b.update input).1.completed_bytes =
        min (b.completed_bytes +
          input.length / b.algorithm.block_len * b.algorithm.block_len) U64_MAX ∧
      (b.update input).1.completed_bytes ≤ U64_MAX) ∧
    (∀ (b : BlockContext) (pending : List Nat) (np : Nat),
      pending.length = b.algorithm.block_len → np < pending.length →
      (b.finish pending np = none ↔ U64_MAX < 8 * (b.completed_bytes + np))) := by
  refine ⟨?_, ?_, ?_⟩
  · intro c data hpl hnp
    obtain ⟨⟨st, cb, alg⟩, p, np⟩ := c
    dsimp only at hpl hnp
    simp only [Context.update]
    split
    · rfl
    · split
      · split <;> rfl
      · rename_i h1 h2
        simp at h2
        omega
  · intro b input
    refine ⟨by simp [BlockContext.update, blockDataOrder, satAddU64], ?_⟩
    simp [BlockContext.update, blockDataOrder, satAddU64]
  · intro b pending np hlen hnp
    simp only [BlockContext.finish, checkedAddU64, bitLenFromByteLen]
    rw [if_pos hlen, if_pos hnp]
    by_cases h1 : b.completed_bytes + np ≤ U64_MAX
    · by_cases h2 : 8 * (b.completed_bytes + np) ≤ U64_MAX
      · simp [if_pos h1, if_pos h2]
        omega
      · simp [if_pos h1, if_neg h2]
        omega
    · simp [if_neg h1]
      omega

/-- Witness for `update_infallible_overflow_in_finish` at concrete inputs. -/
theorem update_infallible_overflow_in_finish_witness :
    (((Context.new (SHA256 trivialHooks)).block.algorithm.block_len ≤
        (Context.new (SHA256 trivialHooks)).pending.length ∧
      (Context.new (SHA256 trivialHooks)).num_pending <
        (Context.new (SHA256 trivialHooks)).block.algorithm.block_len) ∧
      ((Context.new (SHA256 trivialHooks)).update [1, 2, 3]).isSome = true) ∧
    ((List.replicate 64 0).length =
        (BlockContext.new (SHA256 trivialHooks)).algorithm.block_len ∧
      0 < (List.replicate 64 0).length ∧
      ((BlockContext.new (SHA256 trivialHooks)).finish (List.replicate 64 0) 0 = none ↔
        U64_MAX < 8 * ((BlockContext.new (SHA256 trivialHooks)).completed_bytes + 0))) :=
  ⟨⟨⟨by simp [Context.new, BlockContext.new, SHA256, MAX_BLOCK_LEN],
     by simp [Context.new, BlockContext.new, SHA256]⟩,
    update_infallible_overflow_in_finish.1 _ _
      (by simp [Context.new, BlockContext.new, SHA256, MAX_BLOCK_LEN])
      (by simp [Context.new, BlockContext.new, SHA256])⟩,
   ⟨by simp [BlockContext.new, SHA256],
    by simp,
    update_infallible_overflow_in_finish.2.2 _ _ _
      (by simp [BlockContext.new, SHA256])
      (by simp)⟩⟩

/-! ## Snapshot restoration (claims C5, C6, C8) -/

/-- A snapshot whose algorithm name is not one of the five recognized
identifiers (its other fields are well-formed). -/
def badAlgoSnapshot : ContextData :=
  { state := { name := "as32", data := List.replicate 8 0 },
    completed_bytes := 0,
    algorithm := "MD5",
    num_pending := 0,
    pending := List.replicate 128 0 }

set_option maxRecDepth 40000 in
/-- C5: evaluation of `deserialize` at a snapshot with an unrecognized
algorithm name.  The `_ => &SHA256` arm silently maps it to the default
SHA-256 descriptor; it is not treated as a decode failure.  (The claim —
and spec §4.6/§9 — say such a name must fail to decode; the code's
fallback is the unintended behaviour the spec's §9 open question flags.) -/
theorem deserialize_unknown_name_defaults_to_sha256 :
    badAlgoSnapshot.algorithm ≠ "SHA1" ∧ badAlgoSnapshot.algorithm ≠ "SHA256" ∧
    badAlgoSnapshot.algorithm ≠ "SHA384" ∧ badAlgoSnapshot.algorithm ≠ "SHA512" ∧
    badAlgoSnapshot.algorithm ≠ "SHA512_256" ∧
    (Context.deserialize trivialHooks badAlgoSnapshot).map
      (fun c => c.block.algorithm.id) = some AlgorithmID.SHA256 := by
  refine ⟨by decide, by decide, by decide, by decide, by decide, rfl⟩

/-- A snapshot whose serialized pending buffer has the wrong size
(5 bytes instead of the fixed `MAX_BLOCK_LEN = 128`). -/
def badPendingSnapshot : ContextData :=
  { state := { name := "as32", data := List.replicate 8 0 },
    completed_bytes := 0,
    algorithm := "SHA256",
    num_pending := 0,
    pending := List.replicate 5 0 }

/-- A snapshot whose chaining-word list has the wrong count (7 words). -/
def badWordCountSnapshot : ContextData :=
  { state := { name := "as64", data := List.replicate 7 0 },
    completed_bytes := 0,
    algorithm := "SHA512",
    num_pending := 0,
    pending := List.replicate 128 0 }

/-- A snapshot whose word-width tag says 32-bit but which carries a word
value that cannot be narrowed to 32 bits. -/
def badNarrowSnapshot : ContextData :=
  { state := { name := "as32", data := 2 ^ 32 :: List.replicate 7 0 },
    completed_bytes := 0,
    algorithm := "SHA256",
    num_pending := 0,
    pending := List.replicate 128 0 }

set_option maxRecDepth 40000 in
/-- C6: evaluation of `deserialize` at each malformed shape.  In the
embedding `none` is a Rust panic: `deserialize`'s signature
(`fn deserialize(data: ContextData) -> Self`) has no error channel at all,
and each malformed shape hits an `.unwrap()` (on `try_into` for the word
count and the pending buffer size, on `u32::try_from` for narrowing), so
the failure is a crash, not a recoverable failure returned to the
caller — contradicting the claim. -/
theorem deserialize_malformed_shape_panics :
    Context.deserialize trivialHooks badPendingSnapshot = none ∧
    Context.deserialize trivialHooks badWordCountSnapshot = none ∧
    Context.deserialize trivialHooks badNarrowSnapshot = none :=
  ⟨rfl, rfl, rfl⟩

/-- A snapshot whose word-width tag (`"as64"`) contradicts its algorithm
name (`"SHA256"`, whose native width is 32 bits).  All shape checks pass. -/
def mismatchedTagSnapshot : ContextData :=
  { state := { name := "as64", data := List.replicate 8 0 },
    completed_bytes := 0,
    algorithm := "SHA256",
    num_pending := 0,
    pending := List.replicate 128 0 }

set_option maxRecDepth 40000 in
/-- C8 counterexample: `deserialize` trusts the snapshot's word-width tag
without checking it against the algorithm, so it produces a context whose
chaining-state variant is the 64-bit one while the owning algorithm is
SHA-256, whose native word width (the variant of its initial state) is
32-bit — violating the claimed invariant for a deserialize-produced
context. -/
theorem deserialize_width_mismatch :
    (Context.deserialize trivialHooks mismatchedTagSnapshot).map
      (fun c => (c.block.state.is64, c.block.algorithm.initial_state.is64,
        c.block.algorithm.id)) =
    some (true, false, AlgorithmID.SHA256) := rfl

/-- The per-block transform keeps the active variant of the chaining
state (true of the real SHA-1/SHA-256/SHA-512 transforms). -/
def PreservesWidth (f : DynState → List Nat → DynState) : Prop :=
  ∀ s data, (f s data).is64 = s.is64

theorem absorbBlocks_is64 (f : DynState → List Nat → DynState) (bl : Nat)
    (hp : PreservesWidth f) (n : Nat) :
    ∀ (s : DynState) (data : List Nat),
      (absorbBlocks f bl n s data).is64 = s.is64 := by
  induction n with
  | zero => intro s data; rfl
  | succ n ih =>
    intro s data
    rw [absorbBlocks, ih, hp]

/-- A well-formed snapshot whose word-width tag matches its algorithm. -/
def okSnapshot : ContextData :=
  { state := { name := "as32", data := List.replicate 8 1 },
    completed_bytes := 0,
    algorithm := "SHA256",
    num_pending := 0,
    pending := List.replicate 128 0 }

/-- The context `deserialize` reconstructs from `okSnapshot`. -/
def okRestored : Context :=
  { block := { state := DynState.As32 (List.replicate 8 1),
               completed_bytes := 0,
               algorithm := SHA256 trivialHooks },
    pending := List.replicate 128 0,
    num_pending := 0 }

/-- C8 (amended): the chaining-state variant matches the owning
algorithm's native word width after `new`; `update` preserves the
variant and the algorithm whenever the compression hook preserves the
variant (as the real transforms do); and a `deserialize`d context's
variant is the 64-bit one exactly when the snapshot's word-width tag is
`"as64"` — so the invariant holds for restored snapshots whose tag
matches their algorithm's native width, while a snapshot whose tag
contradicts its algorithm yields a context that violates it
(`deserialize_width_mismatch`). -/
theorem variant_matches_native_width :
    (∀ (alg : Algorithm),
      (Context.new alg).block.state.is64 = alg.initial_state.is64) ∧
    (∀ (c : Context) (data : List Nat) (c' : Context),
      PreservesWidth c.block.algorithm.compress →
      c.update data = some c' →
      c'.block.algorithm = c.block.algorithm ∧
      c'.block.state.is64 = c.block.state.is64) ∧
    (∀ (H : Hooks) (d : ContextData) (c' : Context),
      Context.deserialize H d = some c' →
      (c'.block.state.is64 = true ↔ d.state.name = "as64")) := by
  refine ⟨fun alg => rfl, ?_, ?_⟩
  · intro c data c' hp h
    obtain ⟨⟨st, cb, alg⟩, p, np⟩ := c
    dsimp only at hp ⊢
    simp only [Context.update] at h
    split at h
    · simp only [Option.some.injEq] at h
      subst h
      refine ⟨rfl, ?_⟩
      simp [BlockContext.update, blockDataOrder, absorbBlocks_is64 _ _ hp]
    · split at h
      · split at h
        · simp only [Option.some.injEq] at h
          subst h
          refine ⟨rfl, ?_⟩
          simp only [BlockContext.update, blockDataOrder]
          rw [absorbBlocks_is64 _ _ hp, absorbBlocks_is64 _ _ hp]
        · simp only [Option.some.injEq] at h
          subst h
          exact ⟨rfl, rfl⟩
      · exact absurd h (by simp)
  · intro H d c' h
    simp only [Context.deserialize] at h
    by_cases hname : d.state.name = "as64"
    · rw [if_pos hname] at h
      by_cases hlen8 : d.state.data.length = 8
      · rw [if_pos hlen8] at h
        by_cases hp128 : d.pending.length = MAX_BLOCK_LEN
        · simp only [if_pos hp128, Option.some.injEq] at h
          subst h
          simp [hname, DynState.is64]
        · simp [if_neg hp128] at h
      · simp [if_neg hlen8] at h
    · rw [if_neg hname] at h
      by_cases hlen8 : d.state.data.length = 8
      · rw [if_pos hlen8] at h
        by_cases hall : ∀ x ∈ d.state.data, x < 2 ^ 32
        · rw [if_pos hall] at h
          by_cases hp128 : d.pending.length = MAX_BLOCK_LEN
          · simp only [if_pos hp128, Option.some.injEq] at h
            subst h
            simp [hname, DynState.is64]
          · simp [if_neg hp128] at h
        · rw [if_neg hall] at h
          simp at h
      · simp [if_neg hlen8] at h

set_option maxRecDepth 40000 in
/-- Witness for `variant_matches_native_width` at concrete inputs. -/
theorem variant_matches_native_width_witness :
    (PreservesWidth (Context.new (SHA256 trivialHooks)).block.algorithm.compress ∧
      (Context.new (SHA256 trivialHooks)).update [] =
        some (Context.new (SHA256 trivialHooks)) ∧
      ((Context.new (SHA256 trivialHooks)).update [] =
          some (Context.new (SHA256 trivialHooks)) →
        (Context.new (SHA256 trivialHooks)).block.algorithm =
          (Context.new (SHA256 trivialHooks)).block.algorithm ∧
        (Context.new (SHA256 trivialHooks)).block.state.is64 =
          (Context.new (SHA256 trivialHooks)).block.state.is64)) ∧
    (Context.deserialize trivialHooks okSnapshot = some okRestored ∧
      (okRestored.block.state.is64 = true ↔ okSnapshot.state.name = "as64")) :=
  ⟨⟨fun _s _data => rfl, rfl,
    variant_matches_native_width.2.1 (Context.new (SHA256 trivialHooks)) []
      (Context.new (SHA256 trivialHooks)) (fun _s _data => rfl)⟩,
   ⟨rfl,
    variant_matches_native_width.2.2 trivialHooks okSnapshot okRestored rfl⟩⟩

/-! ## Snapshot round-trip (claim C4) -/

/-- Well-formedness of a chaining state, as guaranteed by the Rust types
of every reachable state: eight words, `u32`-bounded in the 32-bit
variant. -/
def StateWF : DynState → Prop
  | .As32 s => s.length = 8 ∧ ∀ w ∈ s, w < 2 ^ 32
  | .As64 s => s.length = 8

/-- Capture/restore is exact: `deserialize ∘ serialize` reconstructs any
reachable context (a context whose algorithm is one of the five
descriptors, whose chaining state is well-formed, and whose pending buffer
has the fixed `MAX_BLOCK_LEN` size — all guaranteed by the Rust types). -/
theorem deserialize_serialize (H : Hooks) (c : Context)
    (hsup : IsSupported H c.block.algorithm)
    (hst : StateWF c.block.state)
    (hpl : c.pending.length = MAX_BLOCK_LEN) :
    Context.deserialize H (Context.serialize c) = some c := by
  obtain ⟨⟨st, cb, alg⟩, p, np⟩ := c
  dsimp only at hsup hst hpl
  rcases hsup with h | h | h | h | h <;> subst h <;> cases st <;>
    simp_all [Context.serialize, Context.deserialize, StateWF,
      SHA1_FOR_LEGACY_USE_ONLY, SHA256, SHA384, SHA512, SHA512_256]

/-- C4: capturing a snapshot with `serialize`, restoring it with
`deserialize`, continuing with any further updates, and calling `finish`
produces exactly the digest obtained by never snapshotting, for any
reachable stream-context state (reachability enters as the Rust-type
invariants: a supported algorithm, a well-formed chaining state, and the
fixed-size pending buffer). -/
theorem snapshot_roundtrip_digest (H : Hooks) (c : Context)
    (hsup : IsSupported H c.block.algorithm)
    (hst : StateWF c.block.state)
    (hpl : c.pending.length = MAX_BLOCK_LEN)
    (chunks : List (List Nat)) :
    ((Context.deserialize H (Context.serialize c)).bind
        (fun c2 => updates c2 chunks)).bind Context.finish =
      (updates c chunks).bind Context.finish := by
  rw [deserialize_serialize H c hsup hst hpl]
  rfl

set_option maxRecDepth 40000 in
/-- Witness for `snapshot_roundtrip_digest` at a concrete context. -/
theorem snapshot_roundtrip_digest_witness :
    (IsSupported trivialHooks (Context.new (SHA512 trivialHooks)).block.algorithm ∧
      StateWF (Context.new (SHA512 trivialHooks)).block.state ∧
      (Context.new (SHA512 trivialHooks)).pending.length = MAX_BLOCK_LEN) ∧
    ((Context.deserialize trivialHooks
          (Context.serialize (Context.new (SHA512 trivialHooks)))).bind
        (fun c2 => updates c2 [[1], [2, 3]])).bind Context.finish =
      (updates (Context.new (SHA512 trivialHooks)) [[1], [2, 3]]).bind
        Context.finish :=
  ⟨⟨Or.inr (Or.inr (Or.inr (Or.inl rfl))),
    by simp [Context.new, BlockContext.new, SHA512, StateWF],
    by simp [Context.new, MAX_BLOCK_LEN]⟩,
   snapshot_roundtrip_digest trivialHooks (Context.new (SHA512 trivialHooks))
     (Or.inr (Or.inr (Or.inr (Or.inl rfl))))
     (by simp [Context.new, BlockContext.new, SHA512, StateWF])
     (by simp [Context.new, MAX_BLOCK_LEN]) [[1], [2, 3]]⟩

/-! ## FIPS 180-4 padding (claim C2) -/

theorem take_set_succ (l : List Nat) (n v : Nat) (h : n < l.length) :
    (l.set n v).take (n + 1) = l.take n ++ [v] := by
  rw [List.set_eq_take_append_cons_drop, if_pos h, List.take_append_eq_append_take]
  simp [List.length_take, Nat.min_eq_left (Nat.le_of_lt h)]

theorem beBytesFixed_length (w n : Nat) : (beBytesFixed w n).length = w := by
  induction w with
  | zero => rfl
  | succ w ih => simp [beBytesFixed, ih]

/-- For values below `2^64`, a big-endian field of `w ≥ 8` bytes is eight
zero bytes short of its 8-byte form. -/
theorem beBytesFixed_ge8 (w n : Nat) (hw : 8 ≤ w) (hn : n < 2 ^ 64) :
    beBytesFixed w n = List.replicate (w - 8) 0 ++ beBytesFixed 8 n := by
  induction w with
  | zero => omega
  | succ w ih =>
    rcases Nat.lt_or_ge w 8 with h | h
    · have hw7 : w = 7 := by omega
      subst hw7
      simp
    · have hle : 2 ^ 64 ≤ 2 ^ (8 * w) :=
        Nat.pow_le_pow_right (by norm_num) (by omega)
      rw [beBytesFixed, ih h, Nat.div_eq_of_lt (by omega)]
      have h1 : w + 1 - 8 = (w - 8) + 1 := by omega
      rw [h1, List.replicate_succ]
      simp

theorem absorbAll_single (f : DynState → List Nat → DynState) (bl : Nat)
    (s : DynState) (data : List Nat) (h : data.length = bl) (hbl : 0 < bl) :
    absorbAll f bl s data = f s data := by
  subst h
  have : 0 < data.length := by omega
  simp [absorbAll, Nat.div_self this, absorbBlocks]

theorem absorbAll_two (f : DynState → List Nat → DynState) (bl : Nat)
    (s : DynState) (B1 B2 : List Nat)
    (h1 : B1.length = bl) (h2 : B2.length = bl) (hbl : 0 < bl) :
    absorbAll f bl s (B1 ++ B2) = f (f s B1) B2 := by
  have hdiv : (B1 ++ B2).length / bl = 2 := by
    simp only [List.length_append, h1, h2]
    rw [Nat.add_div_right _ hbl, Nat.div_self hbl]
  rw [absorbAll, hdiv, absorbBlocks,
    show (B1 ++ B2).take bl = B1 from by rw [← h1]; exact List.take_left B1 B2,
    show (B1 ++ B2).drop bl = B2 from by rw [← h1]; exact List.drop_left B1 B2]
  simp [absorbBlocks, List.take_of_length_le (Nat.le_of_eq h2)]

/-- Defined from the claim's words (the spec's description of the FIPS
180-4 padding), for comparison with `BlockContext.finish`: after the
pending bytes a single mandatory `0x80` byte is appended; if the remaining
room in the current block cannot also hold the length field, the rest of
that block is zero-filled and a fresh block is started; the data is
zero-filled up to the length field, and the total bit count occupies the
final `len_len` bytes as a fixed-width big-endian integer. -/
def specPaddedTail (block_len len_len : Nat) (pendingBytes : List Nat)
    (totalBits : Nat) : List Nat :=
  let base := pendingBytes ++ [0x80]
  if block_len - base.length < len_len then
    base ++ List.replicate (block_len - base.length) 0 ++
      (List.replicate (block_len - len_len) 0 ++ beBytesFixed len_len totalBits)
  else
    base ++ List.replicate (block_len - len_len - base.length) 0 ++
      beBytesFixed len_len totalBits

/-- The method `BlockContext.finish` compresses exactly the blocks of
`specPaddedTail` (over the pending prefix and total bit count) and formats
the result, whenever the block shape is valid and the total length does
not overflow.  Stated for any descriptor whose length field is at least 8
bytes and fits in a block, as all five are. -/
theorem finish_spec_generic (alg : Algorithm) (st : DynState) (cb : Nat)
    (pending : List Nat) (np : Nat)
    (h8 : 8 ≤ alg.len_len) (hll : alg.len_len ≤ alg.block_len)
    (hlen : pending.length = alg.block_len) (hnp : np < alg.block_len)
    (hbits : 8 * (cb + np) ≤ U64_MAX) :
    BlockContext.finish ⟨st, cb, alg⟩ pending np =
      some { value := alg.format_output (absorbAll alg.compress alg.block_len st
               (specPaddedTail alg.block_len alg.len_len (pending.take np)
                 (8 * (cb + np)))),
             algorithm := alg } := by
  have hbl : 0 < alg.block_len := by omega
  have hnp' : np < pending.length := by omega
  have hcb : cb + np ≤ U64_MAX :=
    Nat.le_trans (by omega) hbits
  have hlt64 : 8 * (cb + np) < 2 ^ 64 := by
    have : U64_MAX < 2 ^ 64 := by
      rw [U64_MAX]
      omega
    omega
  have hset : (pending.set np 128).length = alg.block_len := by
    simp [List.length_set, hlen]
  have htakenp : (pending.take np).length = np := by
    simp [List.length_take]
    omega
  have hbase : ((pending.take np) ++ [(128 : Nat)]).length = np + 1 := by
    simp [htakenp]
  have hbdo : ∀ (s : DynState) (d : List Nat),
      (blockDataOrder alg.compress alg.block_len s d).1 =
        absorbAll alg.compress alg.block_len s d := fun _ _ => rfl
  simp only [BlockContext.finish, checkedAddU64, bitLenFromByteLen]
  rw [if_pos hlen, if_pos hnp']
  simp only [if_pos hcb, if_pos hbits]
  rw [specPaddedTail]
  by_cases hover : np + 1 > alg.block_len - alg.len_len
  · rw [if_pos (show np + 1 > (pending.set np 128).length - alg.len_len from by
        rw [hset]; exact hover),
      if_pos (show alg.block_len - (pending.take np ++ [(128 : Nat)]).length <
          alg.len_len from by rw [hbase]; omega)]
    dsimp only
    rw [take_set_succ pending np 128 hnp', hset, hbase]
    simp only [List.take_zero, List.nil_append, Nat.sub_zero]
    rw [List.take_left' (show (List.replicate (alg.block_len - 8) (0 : Nat)).length
        = alg.block_len - 8 from List.length_replicate _ _)]
    have hPlen : ((pending.take np ++ [128]) ++
        List.replicate (alg.block_len - (np + 1)) 0).length = alg.block_len := by
      simp [htakenp]
      omega
    have hF2len : (List.replicate (alg.block_len - 8) (0 : Nat) ++
        beBytesFixed 8 (8 * (cb + np))).length = alg.block_len := by
      simp [beBytesFixed_length]
      omega
    rw [hbdo, hbdo, absorbAll_single _ _ _ _ hPlen hbl,
      absorbAll_single _ _ _ _ hF2len hbl]
    rw [beBytesFixed_ge8 alg.len_len _ h8 hlt64,
      ← List.append_assoc (List.replicate (alg.block_len - alg.len_len) 0),
      ← List.replicate_add,
      show alg.block_len - alg.len_len + (alg.len_len - 8) = alg.block_len - 8
        from by omega]
    rw [absorbAll_two _ _ _ _ _ hPlen hF2len hbl]
  · rw [if_neg (show ¬ np + 1 > (pending.set np 128).length - alg.len_len from by
        rw [hset]; exact hover),
      if_neg (show ¬ alg.block_len - (pending.take np ++ [(128 : Nat)]).length <
          alg.len_len from by rw [hbase]; omega)]
    dsimp only
    rw [take_set_succ pending np 128 hnp', hbase]
    rw [List.take_left' (show (pending.take np ++ [128] ++
        List.replicate (alg.block_len - 8 - (np + 1)) (0 : Nat)).length =
          alg.block_len - 8 from by simp [htakenp]; omega)]
    have hF1len : (pending.take np ++ [128] ++
        List.replicate (alg.block_len - 8 - (np + 1)) 0 ++
          beBytesFixed 8 (8 * (cb + np))).length = alg.block_len := by
      simp [htakenp, beBytesFixed_length]
      omega
    rw [hbdo, absorbAll_single _ _ _ _ hF1len hbl]
    rw [beBytesFixed_ge8 alg.len_len _ h8 hlt64,
      ← List.append_assoc (pending.take np ++ [128] ++
        List.replicate (alg.block_len - alg.len_len - (np + 1)) 0),
      List.append_assoc (pending.take np ++ [128])
        (List.replicate (alg.block_len - alg.len_len - (np + 1)) 0)
        (List.replicate (alg.len_len - 8) 0),
      ← List.replicate_add,
      show alg.block_len - alg.len_len - (np + 1) + (alg.len_len - 8) =
          alg.block_len - 8 - (np + 1) from by omega,
      absorbAll_single _ _ _ _ hF1len hbl]

/-- C2: `BlockContext::finish` performs exactly the padding the claim
describes: a single `0x80` after the pending bytes; if the room left in
the block cannot hold the length field, zero-fill, compress, fresh block;
zero-fill up to the length field; the total bit count as a fixed-width
big-endian integer in the final `len_len` bytes; compression of the
padded block(s).  Stated as: `finish` equals formatting the state after
absorbing precisely the blocks of `specPaddedTail` (the padding as worded
by the spec), for every supported algorithm, every valid buffer shape,
and every non-overflowing length. -/
theorem finish_writes_fips_padding (H : Hooks) (alg : Algorithm)
    (hsup : IsSupported H alg) (st : DynState) (cb : Nat)
    (pending : List Nat) (np : Nat)
    (hlen : pending.length = alg.block_len) (hnp : np < alg.block_len)
    (hbits : 8 * (cb + np) ≤ U64_MAX) :
    BlockContext.finish ⟨st, cb, alg⟩ pending np =
      some { value := alg.format_output (absorbAll alg.compress alg.block_len st
               (specPaddedTail alg.block_len alg.len_len (pending.take np)
                 (8 * (cb + np)))),
             algorithm := alg } :=
  finish_spec_generic alg st cb pending np
    (by rcases hsup with h | h | h | h | h <;> subst h <;>
      simp [SHA1_FOR_LEGACY_USE_ONLY, SHA256, SHA384, SHA512, SHA512_256])
    (by rcases hsup with h | h | h | h | h <;> subst h <;>
      simp [SHA1_FOR_LEGACY_USE_ONLY, SHA256, SHA384, SHA512, SHA512_256])
    hlen hnp hbits

set_option maxRecDepth 40000 in
/-- Witness for `finish_writes_fips_padding` at a concrete input. -/
theorem finish_writes_fips_padding_witness :
    (IsSupported trivialHooks (SHA256 trivialHooks) ∧
      (List.replicate 64 (0 : Nat)).length = (SHA256 trivialHooks).block_len ∧
      0 < (SHA256 trivialHooks).block_len ∧
      8 * (0 + 0) ≤ U64_MAX) ∧
    BlockContext.finish
        ⟨(SHA256 trivialHooks).initial_state, 0, SHA256 trivialHooks⟩
        (List.replicate 64 0) 0 =
      some { value := (SHA256 trivialHooks).format_output
               (absorbAll (SHA256 trivialHooks).compress
                 (SHA256 trivialHooks).block_len
                 (SHA256 trivialHooks).initial_state
                 (specPaddedTail (SHA256 trivialHooks).block_len
                   (SHA256 trivialHooks).len_len
                   ((List.replicate 64 0).take 0) (8 * (0 + 0)))),
             algorithm := SHA256 trivialHooks } :=
  ⟨⟨Or.inr (Or.inl rfl), by simp [SHA256], by simp [SHA256], by simp⟩,
   finish_writes_fips_padding trivialHooks (SHA256 trivialHooks)
     (Or.inr (Or.inl rfl)) (SHA256 trivialHooks).initial_state 0
     (List.replicate 64 0) 0 (by simp [SHA256]) (by simp [SHA256]) (by simp)⟩

/-- The context reached from `Context.new (SHA256 trivialHooks)` by
`update [7]`. -/
def ctx7 : Context :=
  { block := { state := (SHA256 trivialHooks).initial_state,
               completed_bytes := 0,
               algorithm := SHA256 trivialHooks },
    pending := 7 :: List.replicate 127 0,
    num_pending := 1 }

set_option maxRecDepth 40000 in
/-- Witness for `num_pending_invariant` at concrete inputs. -/
theorem num_pending_invariant_witness :
    (IsSupported trivialHooks
        (Context.new (SHA256 trivialHooks)).block.algorithm ∧
      (Context.new (SHA256 trivialHooks)).num_pending <
        (Context.new (SHA256 trivialHooks)).block.algorithm.block_len) ∧
    ((Context.new (SHA256 trivialHooks)).update [7] = some ctx7 ∧
      (ctx7.block.algorithm = (Context.new (SHA256 trivialHooks)).block.algorithm ∧
        ctx7.block.algorithm.block_len ≤ ctx7.pending.length ∧
        ctx7.num_pending < ctx7.block.algorithm.block_len)) :=
  ⟨⟨Or.inr (Or.inl rfl),
    num_pending_invariant.1 trivialHooks (SHA256 trivialHooks) (Or.inr (Or.inl rfl))⟩,
   ⟨rfl,
    num_pending_invariant.2 (Context.new (SHA256 trivialHooks)) [7] ctx7
      (by simp [Context.new, BlockContext.new, SHA256])
      (by simp [Context.new, BlockContext.new, SHA256, MAX_BLOCK_LEN])
      (by simp [Context.new, BlockContext.new, SHA256]) rfl⟩⟩

/-! ## Chunk invariance (claim C1) -/

theorem absorbBlocks_split (f : DynState → List Nat → DynState) (bl : Nat) :
    ∀ (n m : Nat) (s : DynState) (l : List Nat),
      absorbBlocks f bl (n + m) s l =
        absorbBlocks f bl m (absorbBlocks f bl n s (l.take (n * bl)))
          (l.drop (n * bl)) := by
  intro n
  induction n with
  | zero => intro m s l; simp [absorbBlocks]
  | succ n ih =>
    intro m s l
    rw [show n + 1 + m = (n + m) + 1 from by omega, absorbBlocks, ih, absorbBlocks]
    have h1 : (l.take ((n + 1) * bl)).take bl = l.take bl := by
      rw [List.take_take, Nat.succ_mul, Nat.min_eq_left (Nat.le_add_left bl (n * bl))]
    have h2 : (l.take ((n + 1) * bl)).drop bl = (l.drop bl).take (n * bl) := by
      rw [List.drop_take]
      congr 1
      rw [Nat.succ_mul]
      omega
    have h3 : l.drop ((n + 1) * bl) = (l.drop bl).drop (n * bl) := by
      rw [List.drop_drop]
      congr 1
      rw [Nat.succ_mul]
      omega
    rw [h1, h2, h3]

theorem absorbBlocks_take_full (f : DynState → List Nat → DynState) (bl : Nat) :
    ∀ (n : Nat) (s : DynState) (l : List Nat),
      absorbBlocks f bl n s (l.take (n * bl)) = absorbBlocks f bl n s l := by
  intro n
  induction n with
  | zero => intro s l; rfl
  | succ n ih =>
    intro s l
    rw [absorbBlocks, absorbBlocks]
    have h1 : (l.take ((n + 1) * bl)).take bl = l.take bl := by
      rw [List.take_take, Nat.succ_mul, Nat.min_eq_left (Nat.le_add_left bl (n * bl))]
    have h2 : (l.take ((n + 1) * bl)).drop bl = (l.drop bl).take (n * bl) := by
      rw [List.drop_take]
      congr 1
      rw [Nat.succ_mul]
      omega
    rw [h1, h2, ih]

theorem div_mod_of_eq (k r bl total : Nat) (hbl : 0 < bl)
    (h : total = k * bl + r) (hr : r < bl) :
    total / bl = k ∧ total % bl = r := by
  subst h
  constructor
  · rw [Nat.add_comm, Nat.add_mul_div_right _ _ hbl, Nat.div_eq_of_lt hr, Nat.zero_add]
  · rw [Nat.add_comm, Nat.add_mul_mod_self_right, Nat.mod_eq_of_lt hr]

/-- Simulation invariant for claim C1: the stream context `c` is in the
state reached by feeding the byte string `fed` into a fresh context for
`alg` (the pending buffer is constrained only on its meaningful prefix,
since its tail beyond `num_pending` is scratch). -/
structure Sim (alg : Algorithm) (fed : List Nat) (c : Context) : Prop where
  halg : c.block.algorithm = alg
  hstate : c.block.state =
    absorbAll alg.compress alg.block_len alg.initial_state fed
  hcompleted : c.block.completed_bytes =
    min (fed.length / alg.block_len * alg.block_len) U64_MAX
  hnp : c.num_pending = fed.length % alg.block_len
  hpend : c.pending.take c.num_pending =
    fed.drop (fed.length / alg.block_len * alg.block_len)
  hplen : alg.block_len ≤ c.pending.length

theorem new_sim (H : Hooks) (alg : Algorithm) (hsup : IsSupported H alg) :
    Sim alg [] (Context.new alg) := by
  refine ⟨rfl, ?_, ?_, ?_, ?_, ?_⟩
  · simp [absorbAll, absorbBlocks, Context.new, BlockContext.new]
  · simp [Context.new, BlockContext.new]
  · simp [Context.new]
  · simp [Context.new]
  · simpa [Context.new, MAX_BLOCK_LEN] using block_len_le_max hsup

theorem absorbAll_append_zero_mod (f : DynState → List Nat → DynState)
    (bl : Nat) (hbl : 0 < bl) (s : DynState) (u v : List Nat)
    (hu : u.length % bl = 0) :
    absorbAll f bl s (u ++ v) = absorbAll f bl (absorbAll f bl s u) v := by
  have hu' : u.length / bl * bl = u.length := by
    have h := Nat.div_add_mod u.length bl
    rw [Nat.mul_comm] at h
    omega
  have hv := Nat.div_add_mod v.length bl
  rw [Nat.mul_comm] at hv
  have hqm : (u.length / bl + v.length / bl) * bl =
      u.length / bl * bl + v.length / bl * bl := Nat.add_mul _ _ _
  have hsum : (u ++ v).length =
      (u.length / bl + v.length / bl) * bl + v.length % bl := by
    rw [List.length_append]
    omega
  obtain ⟨hdiv, -⟩ := div_mod_of_eq _ _ bl _ hbl hsum (Nat.mod_lt _ hbl)
  rw [absorbAll, hdiv, absorbBlocks_split,
    List.take_left' hu'.symm, List.drop_left' hu'.symm]
  rfl

theorem take_append_left (l1 l2 : List Nat) (n : Nat) (h : n ≤ l1.length) :
    (l1 ++ l2).take n = l1.take n := by
  rw [List.take_append_eq_append_take, show n - l1.length = 0 from by omega]
  simp

theorem drop_append_left (l1 l2 : List Nat) (n : Nat) (h : n ≤ l1.length) :
    (l1 ++ l2).drop n = l1.drop n ++ l2 := by
  rw [List.drop_append_eq_append_drop, show n - l1.length = 0 from by omega]
  rfl

theorem take_append_add (l1 l2 : List Nat) (m : Nat) :
    (l1 ++ l2).take (l1.length + m) = l1 ++ l2.take m := by
  rw [List.take_append_eq_append_take,
    List.take_of_length_le (by omega), Nat.add_sub_cancel_left]

/-- Absorbing an extension too short to complete another block leaves the
chaining state unchanged. -/
theorem absorbAll_append_small (f : DynState → List Nat → DynState)
    (bl : Nat) (hbl : 0 < bl) (s : DynState) (u v : List Nat)
    (h : u.length % bl + v.length < bl) :
    absorbAll f bl s (u ++ v) = absorbAll f bl s u := by
  have hu := Nat.div_add_mod u.length bl
  rw [Nat.mul_comm] at hu
  have hsum : (u ++ v).length = u.length / bl * bl + (u.length % bl + v.length) := by
    rw [List.length_append]
    omega
  obtain ⟨hdiv, -⟩ := div_mod_of_eq _ _ _ _ hbl hsum h
  rw [absorbAll, absorbAll, hdiv]
  conv_lhs => rw [← absorbBlocks_take_full f bl (u.length / bl) s (u ++ v)]
  rw [take_append_left u v _ (by omega), absorbBlocks_take_full]

theorem update_sim (alg : Algorithm) (hbl : 0 < alg.block_len)
    (fed : List Nat) (c : Context) (hsim : Sim alg fed c) (data : List Nat) :
    ∃ c', c.update data = some c' ∧ Sim alg (fed ++ data) c' := by
  obtain ⟨halg, hstate, hcompleted, hnp, hpend, hplen⟩ := hsim
  obtain ⟨⟨st, cb, alg'⟩, p, np⟩ := c
  dsimp only at halg hstate hcompleted hnp hpend hplen ⊢
  rw [halg]
  have hmodlt : fed.length % alg.block_len < alg.block_len := Nat.mod_lt _ hbl
  have hfedlen : fed.length =
      fed.length / alg.block_len * alg.block_len +
        fed.length % alg.block_len := by
    have h := Nat.div_add_mod fed.length alg.block_len
    rw [Nat.mul_comm] at h
    omega
  have hbuf : (p.take alg.block_len).length = alg.block_len := by
    simp
    omega
  by_cases h0 : np = 0
  · subst h0
    have hmod0 : fed.length % alg.block_len = 0 := hnp.symm
    have hdata := Nat.div_add_mod data.length alg.block_len
    rw [Nat.mul_comm] at hdata
    have hrlt : data.length % alg.block_len < alg.block_len := Nat.mod_lt _ hbl
    have hqm : (fed.length / alg.block_len + data.length / alg.block_len) *
        alg.block_len =
        fed.length / alg.block_len * alg.block_len +
          data.length / alg.block_len * alg.block_len := Nat.add_mul _ _ _
    have hsum : (fed ++ data).length =
        (fed.length / alg.block_len + data.length / alg.block_len) *
          alg.block_len + data.length % alg.block_len := by
      rw [List.length_append]
      omega
    obtain ⟨hdiv, hmod⟩ := div_mod_of_eq _ _ _ _ hbl hsum hrlt
    have hfedfull : fed.length = fed.length / alg.block_len * alg.block_len := by
      omega
    cases hu : Context.update ⟨⟨st, cb, alg⟩, p, 0⟩ data with
    | none =>
      simp only [Context.update, reduceIte] at hu
      exact Option.noConfusion hu
    | some c' =>
      refine ⟨c', rfl, ?_⟩
      simp only [Context.update, reduceIte, Option.some.injEq] at hu
      subst hu
      simp only [BlockContext.update_eq]
      refine ⟨rfl, ?_, ?_, ?_, ?_, ?_⟩
      · show absorbAll alg.compress alg.block_len st data = _
        rw [hstate,
          absorbAll_append_zero_mod alg.compress alg.block_len hbl _ _ _ hmod0]
      · show satAddU64 cb _ = _
        rw [hcompleted, hdiv, hqm, satAddU64]
        omega
      · show (data.drop _).length = _
        rw [hmod]
        simp only [List.length_drop]
        omega
      · show List.take _ _ = _
        rw [hdiv, hqm, ← hfedfull]
        rw [List.drop_append_eq_append_drop,
          show fed.drop (fed.length + data.length / alg.block_len * alg.block_len)
              = ([] : List Nat) from List.drop_eq_nil_of_le (by omega),
          List.nil_append, Nat.add_sub_cancel_left]
        dsimp only
        rw [overwriteAtStart, hbuf,
          show List.take alg.block_len
              (List.drop (data.length / alg.block_len * alg.block_len) data) =
            List.drop (data.length / alg.block_len * alg.block_len) data from
            List.take_of_length_le (by simp only [List.length_drop]; omega),
          List.append_assoc]
        exact List.take_left' rfl
      · show alg.block_len ≤ _
        rw [List.length_append, overwriteAtStart_length, hbuf]
        omega
  · have hnp_lt : np < alg.block_len := by rw [hnp]; exact hmodlt
    have hptn : (List.take np p).length = np := by
      simp
      omega
    have hfl : ((p.take alg.block_len).drop np).length = alg.block_len - np := by
      rw [List.length_drop, hbuf]
    cases hu : Context.update ⟨⟨st, cb, alg⟩, p, np⟩ data with
    | none =>
      simp only [Context.update, if_neg h0] at hu
      rw [if_pos (show np ≤ (p.take alg.block_len).length from by
        rw [hbuf]; omega)] at hu
      split at hu <;> exact Option.noConfusion hu
    | some c' =>
      refine ⟨c', rfl, ?_⟩
      simp only [Context.update, if_neg h0] at hu
      rw [if_pos (show np ≤ (p.take alg.block_len).length from by
        rw [hbuf]; omega)] at hu
      by_cases hfill : ((p.take alg.block_len).drop np).length ≤ data.length
      · rw [if_pos hfill] at hu
        simp only [Option.some.injEq] at hu
        subst hu
        rw [hfl] at hfill
        have hovw : overwriteAtStart ((p.take alg.block_len).drop np) data
            = data.take (alg.block_len - np) := by
          rw [overwriteAtStart, hfl,
            show ((p.take alg.block_len).drop np).drop data.length = []
              from List.drop_eq_nil_of_le (by rw [hfl]; exact hfill),
            List.append_nil]
        have htt : (p.take alg.block_len).take np = p.take np := by
          rw [List.take_take, Nat.min_eq_left (Nat.le_of_lt hnp_lt)]
        have hB1len : (p.take np ++ data.take (alg.block_len - np)).length
            = alg.block_len := by
          simp
          omega
        have htdm := Nat.div_add_mod (data.drop (alg.block_len - np)).length
          alg.block_len
        rw [Nat.mul_comm] at htdm
        have htdlen : (data.drop (alg.block_len - np)).length =
            data.length - (alg.block_len - np) := by simp
        have htdmod : (data.drop (alg.block_len - np)).length % alg.block_len <
            alg.block_len := Nat.mod_lt _ hbl
        have htdm2 := htdm
        have htdmod2 := htdmod
        simp only [List.length_drop] at htdm2 htdmod2
        have haux : (fed.length / alg.block_len + 1 +
              (data.drop (alg.block_len - np)).length / alg.block_len) *
                alg.block_len =
            fed.length / alg.block_len * alg.block_len + alg.block_len +
              (data.drop (alg.block_len - np)).length / alg.block_len *
                alg.block_len := by ring
        have hsum3 : (fed ++ data).length =
            (fed.length / alg.block_len + 1 +
              (data.drop (alg.block_len - np)).length / alg.block_len) *
                alg.block_len +
              (data.drop (alg.block_len - np)).length % alg.block_len := by
          rw [List.length_append, haux]
          omega
        obtain ⟨hdiv3, hmod3⟩ := div_mod_of_eq _ _ _ _ hbl hsum3 htdmod
        have hUlen : (fed ++ data.take (alg.block_len - np)).length =
            (fed.length / alg.block_len + 1) * alg.block_len + 0 := by
          rw [List.length_append, List.length_take, Nat.add_mul]
          omega
        have hUmod : (fed ++ data.take (alg.block_len - np)).length %
            alg.block_len = 0 :=
          (div_mod_of_eq _ _ _ _ hbl hUlen hbl).2
        have hUdiv : (fed ++ data.take (alg.block_len - np)).length /
            alg.block_len = fed.length / alg.block_len + 1 :=
          (div_mod_of_eq _ _ _ _ hbl hUlen hbl).1
        have hU : absorbAll alg.compress alg.block_len alg.initial_state
              (fed ++ data.take (alg.block_len - np)) =
            alg.compress st (p.take np ++ data.take (alg.block_len - np)) := by
          rw [absorbAll, hUdiv, absorbBlocks_split]
          rw [take_append_left fed _ _ (by omega), absorbBlocks_take_full]
          rw [show absorbBlocks alg.compress alg.block_len
                (fed.length / alg.block_len) alg.initial_state fed =
              absorbAll alg.compress alg.block_len alg.initial_state fed
              from rfl, ← hstate]
          rw [drop_append_left fed _ _ (by omega), ← hpend]
          rw [show absorbBlocks alg.compress alg.block_len 1 st
                (p.take np ++ data.take (alg.block_len - np)) =
              alg.compress st
                ((p.take np ++ data.take (alg.block_len - np)).take
                  alg.block_len) from rfl]
          rw [List.take_of_length_le (Nat.le_of_eq hB1len)]
        have ha : fed ++ data =
            (fed ++ data.take (alg.block_len - np)) ++
              data.drop (alg.block_len - np) := by
          rw [List.append_assoc, List.take_append_drop]
        simp only [BlockContext.update_eq]
        rw [hfl, htt, hovw]
        have hcons : (p.take np ++ data.take (alg.block_len - np)).length /
            alg.block_len * alg.block_len = alg.block_len := by
          rw [hB1len, Nat.div_self hbl, Nat.one_mul]
        refine ⟨rfl, ?_, ?_, ?_, ?_, ?_⟩
        · show absorbAll _ _ (absorbAll _ _ st _) _ = _
          rw [absorbAll_single _ _ _ _ hB1len hbl, ha,
            absorbAll_append_zero_mod alg.compress alg.block_len hbl
              alg.initial_state _ _ hUmod, hU]
        · show satAddU64 (satAddU64 cb _) _ = _
          rw [hcompleted, hdiv3, haux, hcons]
          simp only [satAddU64]
          omega
        · show (List.drop _ _).length = _
          rw [hmod3, List.length_drop]
          omega
        · show List.take _ _ = _
          dsimp only
          rw [hdiv3, haux]
          rw [List.drop_append_eq_append_drop,
            show fed.drop (fed.length / alg.block_len * alg.block_len +
                alg.block_len +
                (data.drop (alg.block_len - np)).length / alg.block_len *
                  alg.block_len) = ([] : List Nat)
              from List.drop_eq_nil_of_le (by omega),
            List.nil_append,
            show fed.length / alg.block_len * alg.block_len + alg.block_len +
                (data.drop (alg.block_len - np)).length / alg.block_len *
                  alg.block_len - fed.length =
              (alg.block_len - np) +
                (data.drop (alg.block_len - np)).length / alg.block_len *
                  alg.block_len from by omega,
            ← List.drop_drop]
          rw [overwriteAtStart, hB1len,
            show ((data.drop (alg.block_len - np)).drop
                ((data.drop (alg.block_len - np)).length / alg.block_len *
                  alg.block_len)).take alg.block_len =
              (data.drop (alg.block_len - np)).drop
                ((data.drop (alg.block_len - np)).length / alg.block_len *
                  alg.block_len)
              from List.take_of_length_le (by simp only [List.length_drop]; omega),
            List.append_assoc]
          exact List.take_left' rfl
        · show alg.block_len ≤ _
          rw [List.length_append, overwriteAtStart_length, hB1len]
          omega
      · rw [if_neg hfill] at hu
        simp only [Option.some.injEq] at hu
        subst hu
        rw [hfl] at hfill
        have hB : data.length < alg.block_len - np := by omega
        have hsum2 : (fed ++ data).length =
            fed.length / alg.block_len * alg.block_len + (np + data.length) := by
          rw [List.length_append]
          omega
        obtain ⟨hdiv2, hmod2⟩ := div_mod_of_eq _ _ _ _ hbl hsum2 (by omega)
        refine ⟨rfl, ?_, ?_, ?_, ?_, ?_⟩
        · show st = _
          rw [hstate, absorbAll_append_small alg.compress alg.block_len hbl
            alg.initial_state fed data (by omega)]
        · show cb = _
          rw [hcompleted, hdiv2]
        · show np + data.length = _
          rw [hmod2]
        · show List.take (np + data.length) _ = _
          rw [hdiv2, drop_append_left fed data _ (by omega), ← hpend]
          rw [List.take_take, Nat.min_eq_left (Nat.le_of_lt hnp_lt)]
          rw [overwriteAtStart, hfl,
            show data.take (alg.block_len - np) = data from
              List.take_of_length_le (by omega)]
          rw [List.append_assoc (p.take np)]
          rw [show np + data.length = (List.take np p).length + data.length from by
            rw [hptn]]
          rw [take_append_add, List.append_assoc data, List.take_left' rfl]
        · show alg.block_len ≤ _
          simp [overwriteAtStart_length]
          omega

theorem updates_sim (alg : Algorithm) (hbl : 0 < alg.block_len) :
    ∀ (chunks : List (List Nat)) (fed : List Nat) (c : Context),
      Sim alg fed c →
      ∃ c', updates c chunks = some c' ∧ Sim alg (fed ++ chunks.flatten) c' := by
  intro chunks
  induction chunks with
  | nil =>
    intro fed c h
    exact ⟨c, rfl, by simpa using h⟩
  | cons ch rest ih =>
    intro fed c h
    obtain ⟨c1, hu, h1⟩ := update_sim alg hbl fed c h ch
    obtain ⟨c2, hr, h2⟩ := ih (fed ++ ch) c1 h1
    refine ⟨c2, ?_, ?_⟩
    · simp only [updates, hu, hr]
    · simpa [List.append_assoc] using h2

theorem finish_none_of_overflow (b : BlockContext) (pending : List Nat)
    (np : Nat) (hlen : pending.length = b.algorithm.block_len)
    (hnp : np < pending.length)
    (h : U64_MAX < 8 * (b.completed_bytes + np)) :
    b.finish pending np = none := by
  simp only [BlockContext.finish, checkedAddU64, bitLenFromByteLen]
  rw [if_pos hlen, if_pos hnp]
  by_cases h1 : b.completed_bytes + np ≤ U64_MAX
  · simp [if_pos h1,
      if_neg (show ¬ 8 * (b.completed_bytes + np) ≤ U64_MAX from by omega)]
  · simp [if_neg h1]

/-- Two contexts that simulate the same fed byte string produce the same
`finish` result: all the data `finish` consumes is determined by `Sim`. -/
theorem finish_congr (H : Hooks) (alg : Algorithm) (hsup : IsSupported H alg)
    (S : List Nat) (c1 c2 : Context) (hs1 : Sim alg S c1) (hs2 : Sim alg S c2) :
    Context.finish c1 = Context.finish c2 := by
  have hbl := block_len_pos hsup
  have h8 : 8 ≤ alg.len_len := by
    rcases hsup with h | h | h | h | h <;> subst h <;>
      simp [SHA1_FOR_LEGACY_USE_ONLY, SHA256, SHA384, SHA512, SHA512_256]
  have hll : alg.len_len ≤ alg.block_len := by
    rcases hsup with h | h | h | h | h <;> subst h <;>
      simp [SHA1_FOR_LEGACY_USE_ONLY, SHA256, SHA384, SHA512, SHA512_256]
  obtain ⟨halg1, hstate1, hcompleted1, hnp1, hpend1, hplen1⟩ := hs1
  obtain ⟨halg2, hstate2, hcompleted2, hnp2, hpend2, hplen2⟩ := hs2
  obtain ⟨⟨st1, cb1, alga⟩, p1, np1⟩ := c1
  obtain ⟨⟨st2, cb2, algb⟩, p2, np2⟩ := c2
  dsimp only at halg1 hstate1 hcompleted1 hnp1 hpend1 hplen1
  dsimp only at halg2 hstate2 hcompleted2 hnp2 hpend2 hplen2
  subst hstate1 hstate2 hcompleted1 hcompleted2 hnp1 hnp2
  have hnp' : S.length % alg.block_len < alg.block_len := Nat.mod_lt _ hbl
  have hlen1 : (p1.take alg.block_len).length = alg.block_len := by
    simp
    omega
  have hlen2 : (p2.take alg.block_len).length = alg.block_len := by
    simp
    omega
  show BlockContext.finish _ _ _ = BlockContext.finish _ _ _
  rw [halg1, halg2]
  dsimp only
  by_cases hov : 8 * (min (S.length / alg.block_len * alg.block_len) U64_MAX +
      S.length % alg.block_len) ≤ U64_MAX
  · rw [finish_spec_generic alg _ _ _ _ h8 hll hlen1 hnp' hov,
      finish_spec_generic alg _ _ _ _ h8 hll hlen2 hnp' hov]
    rw [List.take_take, Nat.min_eq_left (Nat.le_of_lt hnp'), hpend1,
      List.take_take, Nat.min_eq_left (Nat.le_of_lt hnp'), hpend2]
  · rw [finish_none_of_overflow _ _ _ hlen1 (by omega) (by dsimp only; omega),
      finish_none_of_overflow _ _ _ hlen2 (by omega) (by dsimp only; omega)]

/-- C1: for every supported algorithm and every byte string, for every
partition of the string into a sequence of chunks, constructing a
`Context`, calling `update` once per chunk in order, and calling `finish`
yields the same digest as the one-shot `digest` over the whole string. -/
theorem streaming_eq_one_shot (H : Hooks) (alg : Algorithm)
    (hsup : IsSupported H alg) (chunks : List (List Nat)) :
    (updates (Context.new alg) chunks).bind Context.finish =
      digest alg chunks.flatten := by
  have hbl := block_len_pos hsup
  obtain ⟨c1, hc1, hsim1⟩ :=
    updates_sim alg hbl chunks [] (Context.new alg) (new_sim H alg hsup)
  obtain ⟨c2, hc2, hsim2⟩ :=
    update_sim alg hbl [] (Context.new alg) (new_sim H alg hsup) chunks.flatten
  rw [hc1]
  show Context.finish c1 = digest alg chunks.flatten
  simp only [digest, hc2, Option.some_bind]
  rw [List.nil_append] at hsim1 hsim2
  exact finish_congr H alg hsup chunks.flatten c1 c2 hsim1 hsim2

/-- Witness for `streaming_eq_one_shot` at concrete inputs. -/
theorem streaming_eq_one_shot_witness :
    IsSupported trivialHooks (SHA256 trivialHooks) ∧
    (updates (Context.new (SHA256 trivialHooks)) [[1], [2, 3]]).bind
        Context.finish =
      digest (SHA256 trivialHooks) ([[1], [2, 3]] : List (List Nat)).flatten :=
  ⟨Or.inr (Or.inl rfl),
   streaming_eq_one_shot trivialHooks (SHA256 trivialHooks)
     (Or.inr (Or.inl rfl)) [[1], [2, 3]]⟩

/-- The descriptors give SHA-512/256 its own FIPS 180-4 initial chaining
value: it differs from SHA-512's (and its word list from every rotation
of SHA-512's words), as the constants in src/src/digest.rs show.  Whether
the resulting digests of a common input differ is decided by the excluded
per-block compression transform and is outside this development. -/
theorem sha512_256_initial_state_ne (H : Hooks) :
    (SHA512_256 H).initial_state ≠ (SHA512 H).initial_state := by
  simp only [SHA512_256, SHA512]
  decide
